import Mathlib

/-!
Shallow embedding of the bid-lifecycle core of the finvest repository.

The embedded code lives in `server/routes/pitch.js` (the bid router mounted at
`/bids`): `POST /:pitchId/submit` (submitOffer), `GET /:pitchId` (listOffers),
`POST /:bidId/final` (finalizeOffer), `POST /:bidId/accept` (acceptOffer), over
the Mongoose schemas in `server/models/bid.js` and `server/models/pitch.js`.

Modelling decisions:
- Mongo documents become Lean structures; `ObjectId`s become `ℕ`; JS numbers
  become `ℚ` (the claims are about ordering and equality of scores and terms,
  not float rounding); `Date` becomes `ℕ`.
- The database is a `DB` value (a list of bids and a list of pitches) threaded
  explicitly; each route handler becomes a function `… → DB → Except BidError …`.
  A rejected request returns `.error e` and, at the call sites modelled here,
  performs no write before the rejecting check, so the caller keeps the old `DB`.
- Mongo `findOne`/`findById` return the first match in storage order
  (`List.find?`); `updateMany` and `save` become `List.map` keyed on `_id`.
- `.sort({ createdAt: -1 })` and JavaScript `Array.prototype.sort` (stable
  since ES2019) are both modelled as the stable `List.insertionSort`.
- HTTP statuses are mapped to the spec's error taxonomy: 404 → `notFound`,
  the 400 "final offer has already been sent" → `conflict`, 403 → `forbidden`,
  the 400 "Missing required bid information" → `validation`; a JS `TypeError`
  thrown on a null populated pitch (caught as a 500) → `internal`.
-/

deriving instance DecidableEq for Except

namespace Finvest

/-- Status enum of `bidSchema.status` in `server/models/bid.js`. -/
inductive BidStatus
  | pending
  | accepted
  | rejected
  | closed
deriving DecidableEq, Repr

/-- Status enum of `pitchSchema.status` in `server/models/pitch.js`. -/
inductive PitchStatus
  | pending
  | approved
  | rejected
  | offer_sent
deriving DecidableEq, Repr

/-- A document of the `Bid` collection (`server/models/bid.js`). -/
structure Bid where
  id : ℕ
  pitch : ℕ
  investor : ℕ
  principal : ℚ
  interestAnnualPct : ℚ
  tenureMonths : ℚ
  status : BidStatus := .pending
  compositeScore : Option ℚ := none
  isFinal : Bool := false
  createdAt : ℕ := 0
deriving DecidableEq, Repr

/-- A document of the `Pitch` collection (`server/models/pitch.js`); the text
fields (`originalText`, `professionalPitch`, `extractedInfo`) are opaque to the
bid lifecycle and are omitted. -/
structure Pitch where
  id : ℕ
  borrower : ℕ
  status : PitchStatus := .pending
  finalOffer : Option ℕ := none
deriving DecidableEq, Repr

/-- The persistent store: the `Bid` and `Pitch` collections. -/
structure DB where
  bids : List Bid
  pitches : List Pitch
deriving DecidableEq, Repr

/-- Error kinds of the bid routes, mapped from HTTP statuses to the spec's
taxonomy (see the module comment). -/
inductive BidError
  | notFound
  | conflict
  | forbidden
  | validation
  | internal
deriving DecidableEq, Repr

/-- Mongoose `findById` on the `Bid` collection. -/
def findBid (db : DB) (bidId : ℕ) : Option Bid :=
  db.bids.find? (fun b => b.id == bidId)

/-- Mongoose `findById` on the `Pitch` collection. -/
def findPitch (db : DB) (pitchId : ℕ) : Option Pitch :=
  db.pitches.find? (fun p => p.id == pitchId)

/-- JavaScript falsiness of an optional numeric field, as tested by
`if (!principal || !interestAnnualPct || !tenureMonths)`: absent
(`undefined`/`null`) or equal to `0`. -/
def jsFalsy : Option ℚ → Bool
  | none => true
  | some v => v == 0

/-- The `findOne` filter of `POST /:pitchId/submit`:
`{ pitch, investor, status: { $in: ['pending', 'closed'] } }`. -/
def submitMatch (pitchId investorId : ℕ) (b : Bid) : Bool :=
  b.pitch == pitchId && b.investor == investorId &&
    (b.status == .pending || b.status == .closed)

/-- A fresh `_id` for an inserted document: Mongo generates an ObjectId distinct
from every stored one; modelled as one more than the largest stored id. -/
def freshId (db : DB) : ℕ :=
  (db.bids.map Bid.id).foldr max 0 + 1

/-- The in-place overwrite of an existing bid performed by
`POST /:pitchId/submit`: new terms, status reset to `pending`, `isFinal` and
`compositeScore` cleared. -/
def submitUpd (p i t : ℚ) (e : Bid) : Bid :=
  { e with principal := p, interestAnnualPct := i, tenureMonths := t,
           status := .pending, isFinal := false, compositeScore := none }

/-- The fresh document inserted by `POST /:pitchId/submit` when the investor
has no `pending`/`closed` bid on the pitch. -/
def submitNew (pitchId investorId : ℕ) (p i t : ℚ) (now : ℕ) (db : DB) : Bid :=
  { id := freshId db, pitch := pitchId, investor := investorId,
    principal := p, interestAnnualPct := i, tenureMonths := t,
    status := .pending, compositeScore := none, isFinal := false,
    createdAt := now }

/-- `POST /:pitchId/submit` in `server/routes/pitch.js` (bid router): validate
the three numeric fields by JS truthiness, then either overwrite the first
`pending`/`closed` bid of this investor on this pitch (resetting `status`,
`isFinal` and `compositeScore`) or insert a new `pending` bid. Returns the
saved bid and the new store. -/
def submitOffer (pitchId investorId : ℕ)
    (principal interestAnnualPct tenureMonths : Option ℚ)
    (now : ℕ) (db : DB) : Except BidError (Bid × DB) :=
  if jsFalsy principal || jsFalsy interestAnnualPct || jsFalsy tenureMonths then
    .error .validation
  else
    let p := principal.getD 0
    let i := interestAnnualPct.getD 0
    let t := tenureMonths.getD 0
    match db.bids.find? (submitMatch pitchId investorId) with
    | some e =>
        let upd := submitUpd p i t e
        .ok (upd, { db with bids := db.bids.map (fun b => if b.id == e.id then upd else b) })
    | none =>
        let nb := submitNew pitchId investorId p i t now db
        .ok (nb, { db with bids := db.bids ++ [nb] })

/-- The per-document effect of `POST /:bidId/final` on the `Bid` collection:
the target is saved with `isFinal = true` and status `pending`; the
`updateMany` closes every other `pending` bid of the pitch. -/
def finalizeBidUpd (bidId : ℕ) (bid : Bid) (b : Bid) : Bid :=
  if b.id == bidId then { bid with isFinal := true, status := .pending }
  else if b.pitch == bid.pitch && b.status == .pending then { b with status := .closed }
  else b

/-- The per-document effect of `POST /:bidId/final` on the `Pitch` collection:
the bid's pitch is saved with status `offer_sent` and `finalOffer` set. -/
def finalizePitchUpd (bidId pitchId : ℕ) (pc : Pitch) : Pitch :=
  if pc.id == pitchId then { pc with status := .offer_sent, finalOffer := some bidId }
  else pc

/-- `POST /:bidId/final` in `server/routes/pitch.js` (bid router): look up the
bid (404 if absent; a null populated pitch faults before any write), reject
when another bid of the same pitch already has `isFinal = true`, otherwise
close every other `pending` bid of the pitch, mark this bid `isFinal` with
status kept `pending`, and set the pitch to `offer_sent` with `finalOffer`
pointing at this bid. -/
def finalizeOffer (bidId : ℕ) (db : DB) : Except BidError (Bid × DB) :=
  match findBid db bidId with
  | none => .error .notFound
  | some bid =>
    match findPitch db bid.pitch with
    | none => .error .internal
    | some _ =>
      if (db.bids.find? (fun b => b.pitch == bid.pitch && b.isFinal && b.id != bidId)).isSome then
        .error .conflict
      else
        .ok ({ bid with isFinal := true, status := .pending },
             { bids := db.bids.map (finalizeBidUpd bidId bid),
               pitches := db.pitches.map (finalizePitchUpd bidId bid.pitch) })

/-- The per-document effect of `POST /:bidId/accept` on the `Bid` collection:
the target is saved with status `accepted`; the `updateMany` (which has no
status filter) rejects every other bid of the pitch. -/
def acceptBidUpd (bidId : ℕ) (bid : Bid) (b : Bid) : Bid :=
  if b.id == bidId then { bid with status := .accepted }
  else if b.pitch == bid.pitch then { b with status := .rejected }
  else b

/-- The per-document effect of `POST /:bidId/accept` on the `Pitch` collection:
the bid's pitch is saved with status `approved`. -/
def acceptPitchUpd (pitchId : ℕ) (q : Pitch) : Pitch :=
  if q.id == pitchId then { q with status := .approved } else q

/-- `POST /:bidId/accept` in `server/routes/pitch.js` (bid router): look up the
bid (404 if absent; a null populated pitch faults before any write), reject
with 403 unless the actor is the pitch's borrower, otherwise set this bid to
`accepted`, every other bid of the pitch (whatever its status) to `rejected`,
and the pitch to `approved`. -/
def acceptOffer (bidId actingUserId : ℕ) (db : DB) : Except BidError (Bid × DB) :=
  match findBid db bidId with
  | none => .error .notFound
  | some bid =>
    match findPitch db bid.pitch with
    | none => .error .internal
    | some pc =>
      if pc.borrower != actingUserId then
        .error .forbidden
      else
        .ok ({ bid with status := .accepted },
             { bids := db.bids.map (acceptBidUpd bidId bid),
               pitches := db.pitches.map (acceptPitchUpd bid.pitch) })

/-- The payload shape sent to the selector's `/rank` endpoint
(`formattedBids` in `GET /:pitchId`). -/
structure OfferInput where
  investor_id : ℕ
  principal : ℚ
  interest_annual_pct : ℚ
  tenure_months : ℚ
deriving DecidableEq, Repr

/-- An element of the `/rank` response: the offer echoed back with its
`composite_score`. -/
structure RankedOffer where
  investor_id : ℕ
  principal : ℚ
  interest_annual_pct : ℚ
  tenure_months : ℚ
  composite_score : ℚ
deriving DecidableEq, Repr

/-- Largest principal of the batch, the normalization base. -/
def maxPrincipal (offers : List OfferInput) : ℚ :=
  (offers.map OfferInput.principal).foldr max 0

/-- Modelled from the spec: the composite score of one offer. The selector
service behind `SELECTOR_API_URL` (`selector_service.py`) is deployed
externally and its code is not in the repository snapshot; per the spec's
Ranking Function contract the score is
`wPrincipal * normalizedPrincipal + wInterest * normalizedInterestInverse`
with default weights `0.6` / `0.4`, principal normalized relative to the batch
maximum and interest inverted on the 0–100 scale. -/
def compositeScoreOf (maxP : ℚ) (o : OfferInput) : ℚ :=
  (6 / 10) * (o.principal / maxP) + (4 / 10) * (1 - o.interest_annual_pct / 100)

/-- Modelled from the spec: the selector's `/rank` endpoint. Every input offer
is returned augmented with its `composite_score`; the function is pure and
total (the spec's Ranking Function has no failure mode for in-domain offers). -/
def rankOffers (offers : List OfferInput) : List RankedOffer :=
  let maxP := maxPrincipal offers
  offers.map (fun o =>
    { investor_id := o.investor_id, principal := o.principal,
      interest_annual_pct := o.interest_annual_pct,
      tenure_months := o.tenure_months,
      composite_score := compositeScoreOf maxP o })

/-- The query filter of `GET /:pitchId`:
`{ pitch, status: { $in: ['pending', 'accepted'] } }`. -/
def visibleBid (pitchId : ℕ) (b : Bid) : Bool :=
  b.pitch == pitchId && (b.status == .pending || b.status == .accepted)

/-- The `.sort({ createdAt: -1 })` order: newer first. -/
def createdDesc (a b : Bid) : Prop :=
  b.createdAt ≤ a.createdAt

instance : DecidableRel createdDesc :=
  fun a b => inferInstanceAs (Decidable (b.createdAt ≤ a.createdAt))

instance : IsTotal Bid createdDesc :=
  ⟨fun a b => Nat.le_total b.createdAt a.createdAt⟩

instance : IsTrans Bid createdDesc :=
  ⟨fun _ _ _ hab hbc => le_trans hbc hab⟩

/-- The comparator value `bid.compositeScore || 0` used by the ranking sort. -/
def scoreD (b : Bid) : ℚ :=
  b.compositeScore.getD 0

/-- The order of `bids.sort((a, b) => (b.compositeScore || 0) - (a.compositeScore || 0))`:
higher score first. -/
def scoreDesc (a b : Bid) : Prop :=
  scoreD b ≤ scoreD a

instance : DecidableRel scoreDesc :=
  fun a b => inferInstanceAs (Decidable (scoreD b ≤ scoreD a))

instance : IsTotal Bid scoreDesc :=
  ⟨fun a b => le_total (scoreD b) (scoreD a)⟩

instance : IsTrans Bid scoreDesc :=
  ⟨fun _ _ _ hab hbc => le_trans hbc hab⟩

/-- A bid with its transient composite score removed; used to compare a
response bid with its stored document. -/
def clearScore (b : Bid) : Bid :=
  { b with compositeScore := none }

/-- The `formattedBids` projection of `GET /:pitchId`. -/
def formatBid (b : Bid) : OfferInput :=
  { investor_id := b.investor, principal := b.principal,
    interest_annual_pct := b.interestAnnualPct, tenure_months := b.tenureMonths }

/-- The merge step of `GET /:pitchId`: find this bid's ranked offer by
`investor_id` and copy its `composite_score` onto the bid. -/
def augment (ranked : List RankedOffer) (b : Bid) : Bid :=
  match ranked.find? (fun r => r.investor_id == b.investor) with
  | some r => { b with compositeScore := some r.composite_score }
  | none => b

/-- `GET /:pitchId` in `server/routes/pitch.js` (bid router), on its modelled
happy path (the selector call succeeds — see `rankOffers`): fetch the pitch's
`pending`/`accepted` bids newest first, and when the list is non-empty attach
composite scores and stable-sort by score descending. -/
def listOffers (pitchId : ℕ) (db : DB) : List Bid :=
  let fetched := List.insertionSort createdDesc (db.bids.filter (visibleBid pitchId))
  if fetched.isEmpty then fetched
  else
    let ranked := rankOffers (fetched.map formatBid)
    let scored := fetched.map (augment ranked)
    List.insertionSort scoreDesc scored

/-- One inbound request to the bid lifecycle. -/
inductive Op
  | submit (pitchId investorId : ℕ)
      (principal interestAnnualPct tenureMonths : Option ℚ) (now : ℕ)
  | finalize (bidId : ℕ)
  | accept (bidId actingUserId : ℕ)

/-- The store after handling one request: the updated store on success, the old
store on a rejection (every rejecting check in the routes happens before any
write). -/
def applyOp (o : Op) (db : DB) : DB :=
  match o with
  | .submit pid inv p i t now =>
    match submitOffer pid inv p i t now db with
    | .ok (_, db') => db'
    | .error _ => db
  | .finalize bidId =>
    match finalizeOffer bidId db with
    | .ok (_, db') => db'
    | .error _ => db
  | .accept bidId u =>
    match acceptOffer bidId u db with
    | .ok (_, db') => db'
    | .error _ => db

/-- The store after handling a sequence of requests. -/
def run (ops : List Op) (db : DB) : DB :=
  ops.foldl (fun d o => applyOp o d) db

/-- Number of bids of pitch `pitchId` carrying `isFinal = true`. -/
def finalCount (db : DB) (pitchId : ℕ) : ℕ :=
  db.bids.countP (fun b => b.pitch == pitchId && b.isFinal)

/-- The spec's invariant: at most one offer per pitch has `isFinal = true`. -/
def atMostOneFinal (db : DB) : Prop :=
  ∀ pitchId : ℕ, finalCount db pitchId ≤ 1

/-- Well-formedness of the store: Mongo `_id`s are unique. -/
def nodupIds (db : DB) : Prop :=
  (db.bids.map Bid.id).Nodup

/-- The preserved state predicate: unique ids together with the
at-most-one-final-offer invariant. -/
def Inv (db : DB) : Prop :=
  nodupIds db ∧ atMostOneFinal db

/-! Concrete stores used by witnesses and counterexamples. -/

/-- Example bid: investor 10's pending bid on pitch 1. -/
def exBid1 : Bid :=
  { id := 1, pitch := 1, investor := 10, principal := 50000,
    interestAnnualPct := 10, tenureMonths := 12, createdAt := 100 }

/-- Example bid: investor 11's pending bid on pitch 1. -/
def exBid2 : Bid :=
  { id := 2, pitch := 1, investor := 11, principal := 50000,
    interestAnnualPct := 10, tenureMonths := 12, createdAt := 200 }

/-- Example bid: investor 12's pending bid on pitch 1. -/
def exBid3 : Bid :=
  { id := 3, pitch := 1, investor := 12, principal := 40000,
    interestAnnualPct := 9, tenureMonths := 18, createdAt := 300 }

/-- Example pitch owned by borrower 7. -/
def exPitch : Pitch :=
  { id := 1, borrower := 7 }

/-- Example store: three pending bids competing on pitch 1. -/
def exDb : DB :=
  { bids := [exBid1, exBid2, exBid3], pitches := [exPitch] }

/-- Example bid: investor 10's bid on pitch 1 after being closed. -/
def exBid1c : Bid :=
  { exBid1 with status := .closed }

/-- Example store: investor 10 holds a closed bid, investor 11 a pending one. -/
def exDbClosed : DB :=
  { bids := [exBid1c, exBid2], pitches := [exPitch] }

/-- Example bid: investor 11's bid on pitch 1 after being rejected. -/
def exBid2r : Bid :=
  { exBid2 with status := .rejected }

/-- Example store: a pending bid and a rejected bid on pitch 1, no offer ever
sent. -/
def exDbRej : DB :=
  { bids := [exBid1, exBid2r], pitches := [exPitch] }

/-! Theorems. -/

/-- A found bid carries the looked-up id. -/
theorem findBid_id (db : DB) (x : ℕ) (X : Bid) (h : findBid db x = some X) :
    X.id = x := by
  unfold findBid at h
  simpa using List.find?_some h

/-- A found bid is in the store. -/
theorem findBid_mem (db : DB) (x : ℕ) (X : Bid) (h : findBid db x = some X) :
    X ∈ db.bids := by
  unfold findBid at h
  exact List.mem_of_find?_eq_some h

/-- A found pitch carries the looked-up id. -/
theorem findPitch_id (db : DB) (pid : ℕ) (P : Pitch) (h : findPitch db pid = some P) :
    P.id = pid := by
  unfold findPitch at h
  simpa using List.find?_some h

/-- A found pitch is in the store. -/
theorem findPitch_mem (db : DB) (pid : ℕ) (P : Pitch) (h : findPitch db pid = some P) :
    P ∈ db.pitches := by
  unfold findPitch at h
  exact List.mem_of_find?_eq_some h

/-- Success equation of `finalizeOffer`: bid and pitch exist, no other final
bid on the pitch. -/
theorem finalizeOffer_ok (db : DB) (x : ℕ) (X : Bid) (P : Pitch)
    (hX : findBid db x = some X)
    (hP : findPitch db X.pitch = some P)
    (hnone : db.bids.find? (fun b => b.pitch == X.pitch && b.isFinal && b.id != x) = none) :
    finalizeOffer x db = .ok ({ X with isFinal := true, status := .pending },
      { bids := db.bids.map (finalizeBidUpd x X),
        pitches := db.pitches.map (finalizePitchUpd x X.pitch) }) := by
  unfold finalizeOffer
  simp [hX, hP, hnone]

/-- Success equation of `acceptOffer`: bid and pitch exist, actor is the
borrower. -/
theorem acceptOffer_ok (db : DB) (x u : ℕ) (X : Bid) (P : Pitch)
    (hX : findBid db x = some X)
    (hP : findPitch db X.pitch = some P)
    (hu : P.borrower = u) :
    acceptOffer x u db = .ok ({ X with status := .accepted },
      { bids := db.bids.map (acceptBidUpd x X),
        pitches := db.pitches.map (acceptPitchUpd X.pitch) }) := by
  unfold acceptOffer
  simp [hX, hP, hu]

/-- When no bid of the pitch other than the target is final, the conflict
query of `finalizeOffer` finds nothing. -/
theorem noFinal_find_none (db : DB) (x : ℕ) (X : Bid)
    (hnofinal : ∀ b ∈ db.bids, b.pitch = X.pitch → b.isFinal = true → b.id = x) :
    db.bids.find? (fun b => b.pitch == X.pitch && b.isFinal && b.id != x) = none := by
  rw [List.find?_eq_none]
  intro b hb hcontra
  simp only [Bool.and_eq_true, beq_iff_eq, bne_iff_ne] at hcontra
  exact hcontra.2 (hnofinal b hb hcontra.1.1 hcontra.1.2)

/-- The finalize update never changes a bid's `_id`, provided the target bid
carries the finalized id. -/
theorem finalizeBidUpd_id (x : ℕ) (X : Bid) (hid : X.id = x) (b : Bid) :
    (finalizeBidUpd x X b).id = b.id := by
  unfold finalizeBidUpd
  split
  · next h =>
    simp only [beq_iff_eq] at h
    rw [hid, h]
  · split <;> rfl

/-- The finalize update does not move a non-target bid to another pitch. -/
theorem finalizeBidUpd_pitch (x : ℕ) (X : Bid) (b : Bid) (hb : b.id ≠ x) :
    (finalizeBidUpd x X b).pitch = b.pitch := by
  unfold finalizeBidUpd
  rw [if_neg (by simp [hb])]
  split <;> rfl

/-- The finalize update never changes a pitch's `_id`. -/
theorem finalizePitchUpd_id (x pid : ℕ) (pc : Pitch) :
    (finalizePitchUpd x pid pc).id = pc.id := by
  unfold finalizePitchUpd
  split <;> rfl

/-- JS falsiness of an optional numeric field amounts to defaulting to zero. -/
theorem jsFalsy_iff (o : Option ℚ) : jsFalsy o = true ↔ o.getD 0 = 0 := by
  cases o <;> simp [jsFalsy]

/-- Every member of a list of naturals is bounded by its max-fold. -/
theorem le_foldr_max (l : List ℕ) (x : ℕ) (hx : x ∈ l) : x ≤ l.foldr max 0 := by
  induction l with
  | nil => cases hx
  | cons y ys ih =>
    rcases List.mem_cons.mp hx with rfl | h
    · exact le_max_left _ _
    · exact le_trans (ih h) (le_max_right _ _)

/-- The generated id of an inserted bid collides with no stored id. -/
theorem freshId_not_mem (db : DB) : freshId db ∉ db.bids.map Bid.id := by
  intro hmem
  have h := le_foldr_max _ _ hmem
  unfold freshId at h
  omega

/-- In a store with unique ids, at most one bid matches a given id. -/
theorem countP_id_le_one (l : List Bid) (hnd : (l.map Bid.id).Nodup) (x : ℕ) :
    l.countP (fun b => b.id == x) ≤ 1 := by
  calc l.countP (fun b => b.id == x)
      = (l.map Bid.id).countP (fun n => n == x) := by rw [List.countP_map]; rfl
    _ = (l.map Bid.id).count x := rfl
    _ ≤ 1 := List.nodup_iff_count_le_one.mp hnd x

/-- In a store with unique ids, two stored bids with the same id are the same
document. -/
theorem bid_eq_of_id_eq (l : List Bid) (hnd : (l.map Bid.id).Nodup)
    (a b : Bid) (ha : a ∈ l) (hb : b ∈ l) (h : a.id = b.id) : a = b :=
  List.inj_on_of_nodup_map hnd ha hb h

/-- An update that keeps every document's id keeps the ids unique. -/
theorem nodupIds_map (l : List Bid) (f : Bid → Bid)
    (hf : ∀ b ∈ l, (f b).id = b.id) (hnd : (l.map Bid.id).Nodup) :
    ((l.map f).map Bid.id).Nodup := by
  have hmc : l.map (Bid.id ∘ f) = l.map Bid.id :=
    List.map_congr_left (fun b hb => hf b hb)
  rw [List.map_map, hmc]
  exact hnd

/-- The accept update never changes a bid's `_id`, provided the target bid
carries the accepted id. -/
theorem acceptBidUpd_id (x : ℕ) (X : Bid) (hid : X.id = x) (b : Bid) :
    (acceptBidUpd x X b).id = b.id := by
  unfold acceptBidUpd
  split
  · next h =>
    simp only [beq_iff_eq] at h
    rw [hid, h]
  · split <;> rfl

/-- Inversion of a successful `submitOffer`: the store either got one bid
updated in place or one fresh bid appended. -/
theorem submitOffer_ok_inv (pid inv : ℕ) (p i t : Option ℚ) (now : ℕ)
    (db : DB) (bid : Bid) (db' : DB)
    (h : submitOffer pid inv p i t now db = .ok (bid, db')) :
    (∃ e, db.bids.find? (submitMatch pid inv) = some e ∧
       db'.bids = db.bids.map (fun b =>
         if b.id == e.id then submitUpd (p.getD 0) (i.getD 0) (t.getD 0) e else b)) ∨
    db'.bids = db.bids ++ [submitNew pid inv (p.getD 0) (i.getD 0) (t.getD 0) now db] := by
  unfold submitOffer at h
  by_cases hc : (jsFalsy p || jsFalsy i || jsFalsy t) = true
  · rw [if_pos hc] at h
    simp at h
  · rw [if_neg hc] at h
    rcases hf : db.bids.find? (submitMatch pid inv) with _ | e
    · simp only [hf, Except.ok.injEq, Prod.mk.injEq] at h
      right
      rw [← h.2]
    · simp only [hf, Except.ok.injEq, Prod.mk.injEq] at h
      exact Or.inl ⟨e, rfl, by rw [← h.2]⟩

/-- Inversion of a successful `acceptOffer`: the bid collection was mapped
through the accept update for a stored target bid. -/
theorem acceptOffer_ok_inv (x u : ℕ) (db : DB) (bid : Bid) (db' : DB)
    (h : acceptOffer x u db = .ok (bid, db')) :
    ∃ X, findBid db x = some X ∧ db'.bids = db.bids.map (acceptBidUpd x X) := by
  unfold acceptOffer at h
  rcases hf : findBid db x with _ | X
  · simp [hf] at h
  · simp only [hf] at h
    rcases hp : findPitch db X.pitch with _ | pc
    · simp [hp] at h
    · simp only [hp] at h
      by_cases hb : (pc.borrower != u) = true
      · rw [if_pos hb] at h
        simp at h
      · rw [if_neg hb] at h
        simp only [Except.ok.injEq, Prod.mk.injEq] at h
        exact ⟨X, rfl, by rw [← h.2]⟩

/-- Inversion of a successful `finalizeOffer`: no other bid of the pitch was
final, and the bid collection was mapped through the finalize update. -/
theorem finalizeOffer_ok_inv (x : ℕ) (db : DB) (bid : Bid) (db' : DB)
    (h : finalizeOffer x db = .ok (bid, db')) :
    ∃ X, findBid db x = some X ∧
      db.bids.find? (fun b => b.pitch == X.pitch && b.isFinal && b.id != x) = none ∧
      db'.bids = db.bids.map (finalizeBidUpd x X) := by
  unfold finalizeOffer at h
  rcases hf : findBid db x with _ | X
  · simp [hf] at h
  · simp only [hf] at h
    rcases hp : findPitch db X.pitch with _ | pc
    · simp [hp] at h
    · simp only [hp] at h
      rcases hn : db.bids.find? (fun b => b.pitch == X.pitch && b.isFinal && b.id != x) with _ | w
      · rw [hn] at h
        simp only [Option.isSome_none, Bool.false_eq_true, if_false,
          Except.ok.injEq, Prod.mk.injEq] at h
        exact ⟨X, rfl, hn, by rw [← h.2]⟩
      · rw [hn] at h
        simp at h

/-- C5 (amended): `submitOffer` rejects with `ValidationError` exactly when
`principal`, `interestAnnualPct`, or `tenureMonths` is missing or equal to `0`
(JS falsiness); the domain bounds `principal > 0`, `interest ≤ 100`,
`tenure > 0` are not enforced. -/
theorem c5_submit_validation_iff (pid inv : ℕ) (p i t : Option ℚ) (now : ℕ) (db : DB) :
    submitOffer pid inv p i t now db = .error .validation ↔
      p.getD 0 = 0 ∨ i.getD 0 = 0 ∨ t.getD 0 = 0 := by
  have hiff : (jsFalsy p || jsFalsy i || jsFalsy t) = true ↔
      (p.getD 0 = 0 ∨ i.getD 0 = 0 ∨ t.getD 0 = 0) := by
    simp [jsFalsy_iff, or_assoc]
  constructor
  · intro h
    rcases hb : (jsFalsy p || jsFalsy i || jsFalsy t)
    · exfalso
      unfold submitOffer at h
      rw [if_neg (by simp [hb])] at h
      rcases hf : db.bids.find? (submitMatch pid inv) with _ | e <;>
        simp [hf] at h
    · exact hiff.mp hb
  · intro h
    unfold submitOffer
    rw [if_pos (hiff.mpr h)]

/-- C5 counterexample: a request whose three fields are all present and inside
the claimed domain (`principal > 0`, `0 ≤ interest ≤ 100`, `tenure > 0`) is
nevertheless rejected (interest `0` is JS-falsy), and a request with
out-of-domain values (negative principal, interest above 100) is not rejected
by the validation. -/
theorem c5_submit_validation_counterexample :
    ((0:ℚ) < 50000 ∧ (0:ℚ) ≤ 0 ∧ (0:ℚ) ≤ 100 ∧ (0:ℚ) < 12) ∧
    submitOffer 1 10 (some 50000) (some 0) (some 12) 400 exDb = .error .validation ∧
    (¬ (0:ℚ) < -5 ∧ ¬ (150:ℚ) ≤ 100 ∧
      (submitOffer 1 13 (some (-5)) (some 150) (some 12) 400 exDb).isOk = true) := by
  decide

/-- C6: `submitOffer` with valid fields either overwrites the first
`pending`/`closed` bid of this (pitch, investor) pair in place — same identity,
new terms, status reset to `pending`, `isFinal` and score cleared, no record
added or removed — or, when none exists, appends one new `pending` bid. -/
theorem c6_submit_upsert (pid inv : ℕ) (p i t : Option ℚ) (now : ℕ) (db : DB)
    (hp : jsFalsy p = false) (hi : jsFalsy i = false) (ht : jsFalsy t = false) :
    (∀ e, db.bids.find? (submitMatch pid inv) = some e →
       ∃ upd db', submitOffer pid inv p i t now db = .ok (upd, db') ∧
         upd.id = e.id ∧ upd.pitch = e.pitch ∧ upd.investor = e.investor ∧
         upd.status = .pending ∧ upd.isFinal = false ∧ upd.compositeScore = none ∧
         upd.principal = p.getD 0 ∧ upd.interestAnnualPct = i.getD 0 ∧
         upd.tenureMonths = t.getD 0 ∧
         db'.bids.length = db.bids.length ∧ upd ∈ db'.bids ∧
         (∀ b ∈ db.bids, b.id ≠ e.id → b ∈ db'.bids) ∧ db'.pitches = db.pitches) ∧
    (db.bids.find? (submitMatch pid inv) = none →
       ∃ nb db', submitOffer pid inv p i t now db = .ok (nb, db') ∧
         nb.pitch = pid ∧ nb.investor = inv ∧ nb.status = .pending ∧
         nb.isFinal = false ∧ nb.compositeScore = none ∧
         nb.principal = p.getD 0 ∧ nb.interestAnnualPct = i.getD 0 ∧
         nb.tenureMonths = t.getD 0 ∧ db'.bids = db.bids ++ [nb] ∧
         db'.pitches = db.pitches) := by
  have hcond : ¬ ((jsFalsy p || jsFalsy i || jsFalsy t) = true) := by
    simp [hp, hi, ht]
  constructor
  · intro e he
    refine ⟨submitUpd (p.getD 0) (i.getD 0) (t.getD 0) e,
            { db with bids := db.bids.map (fun b =>
                if b.id == e.id then submitUpd (p.getD 0) (i.getD 0) (t.getD 0) e else b) },
            ?_, rfl, rfl, rfl, rfl, rfl, rfl, rfl, rfl, rfl, ?_, ?_, ?_, rfl⟩
    · unfold submitOffer
      rw [if_neg hcond, he]
    · simp
    · exact List.mem_map.mpr ⟨e, List.mem_of_find?_eq_some he, by simp⟩
    · intro b hb hne
      exact List.mem_map.mpr ⟨b, hb, by simp [hne]⟩
  · intro he
    refine ⟨submitNew pid inv (p.getD 0) (i.getD 0) (t.getD 0) now db,
            { db with bids := db.bids ++ [submitNew pid inv (p.getD 0) (i.getD 0) (t.getD 0) now db] },
            ?_, rfl, rfl, rfl, rfl, rfl, rfl, rfl, rfl, rfl, rfl⟩
    unfold submitOffer
    rw [if_neg hcond, he]

/-- C1: a successful `finalizeOffer(X)` marks X final with status still
`pending`, closes every sibling that was `pending` (afterwards no sibling of
the pitch is `pending`), and moves the pitch to `offer_sent` with `finalOffer`
pointing at X. -/
theorem c1_finalize_post (db : DB) (x : ℕ) (X : Bid) (P : Pitch)
    (hX : findBid db x = some X)
    (hP : findPitch db X.pitch = some P)
    (hnofinal : ∀ b ∈ db.bids, b.pitch = X.pitch → b.isFinal = true → b.id = x) :
    ∃ db', finalizeOffer x db = .ok ({ X with isFinal := true, status := .pending }, db') ∧
      { X with isFinal := true, status := .pending } ∈ db'.bids ∧
      (∀ b ∈ db.bids, b.pitch = X.pitch → b.id ≠ x → b.status = .pending →
        { b with status := .closed } ∈ db'.bids) ∧
      (∀ b' ∈ db'.bids, b'.pitch = X.pitch → b'.id ≠ x → b'.status ≠ .pending) ∧
      { P with status := .offer_sent, finalOffer := some x } ∈ db'.pitches := by
  have hnone := noFinal_find_none db x X hnofinal
  have hid : X.id = x := findBid_id db x X hX
  have hPid : P.id = X.pitch := findPitch_id db X.pitch P hP
  refine ⟨_, finalizeOffer_ok db x X P hX hP hnone, ?_, ?_, ?_, ?_⟩
  · refine List.mem_map.mpr ⟨X, findBid_mem db x X hX, ?_⟩
    unfold finalizeBidUpd
    rw [if_pos (by simp [hid])]
  · intro b hb hbp hbid hbst
    refine List.mem_map.mpr ⟨b, hb, ?_⟩
    unfold finalizeBidUpd
    rw [if_neg (by simp [hbid]), if_pos (by simp [hbp, hbst])]
  · intro b' hb' hp' hid'
    obtain ⟨b, hb, rfl⟩ := List.mem_map.mp hb'
    unfold finalizeBidUpd at hp' hid' ⊢
    by_cases h1 : (b.id == x) = true
    · rw [if_pos h1] at hid'
      exact absurd hid hid'
    · rw [if_neg h1] at hp' ⊢
      by_cases h2 : (b.pitch == X.pitch && b.status == BidStatus.pending) = true
      · rw [if_pos h2]
        simp
      · rw [if_neg h2] at hp' ⊢
        intro hc
        exact h2 (by simp [hp', hc])
  · refine List.mem_map.mpr ⟨P, findPitch_mem db X.pitch P hP, ?_⟩
    unfold finalizePitchUpd
    rw [if_pos (by simp [hPid])]

/-- Witness for C1: finalizing bid 1 among three pending bids on pitch 1
closes bids 2 and 3 and sends the offer on the pitch. -/
theorem c1_finalize_post_witness : ∃ db',
    finalizeOffer 1 exDb = .ok ({ exBid1 with isFinal := true, status := .pending }, db') ∧
    { exBid2 with status := .closed } ∈ db'.bids ∧
    { exBid3 with status := .closed } ∈ db'.bids ∧
    { exPitch with status := .offer_sent, finalOffer := some 1 } ∈ db'.pitches := by
  obtain ⟨db', hok, _, hsib, _, hpitch⟩ :=
    c1_finalize_post exDb 1 exBid1 exPitch (by decide) (by decide) (by decide)
  exact ⟨db', hok,
    hsib exBid2 (by decide) rfl (by decide) rfl,
    hsib exBid3 (by decide) rfl (by decide) rfl,
    hpitch⟩

/-- After an accept, the target bid is stored as `accepted`. -/
theorem acceptBidUpd_target_mem (db : DB) (x : ℕ) (X : Bid)
    (hX : findBid db x = some X) :
    { X with status := BidStatus.accepted } ∈ db.bids.map (acceptBidUpd x X) := by
  refine List.mem_map.mpr ⟨X, findBid_mem db x X hX, ?_⟩
  unfold acceptBidUpd
  rw [if_pos (by simp [findBid_id db x X hX])]

/-- After an accept, every sibling of the pitch is stored as `rejected`,
whatever its prior status. -/
theorem acceptBidUpd_sibling_mem (db : DB) (x : ℕ) (X : Bid) :
    ∀ b ∈ db.bids, b.pitch = X.pitch → b.id ≠ x →
      { b with status := BidStatus.rejected } ∈ db.bids.map (acceptBidUpd x X) := by
  intro b hb hbp hbid
  refine List.mem_map.mpr ⟨b, hb, ?_⟩
  unfold acceptBidUpd
  rw [if_neg (by simp [hbid]), if_pos (by simp [hbp])]

/-- After an accept, no stored bid of the pitch other than the target has a
status different from `rejected`. -/
theorem acceptBidUpd_post_rejected (db : DB) (x : ℕ) (X : Bid) (hid : X.id = x) :
    ∀ b' ∈ db.bids.map (acceptBidUpd x X), b'.pitch = X.pitch → b'.id ≠ x →
      b'.status = BidStatus.rejected := by
  intro b' hb' hp' hid'
  obtain ⟨b, hb, rfl⟩ := List.mem_map.mp hb'
  unfold acceptBidUpd at hp' hid' ⊢
  by_cases h1 : (b.id == x) = true
  · rw [if_pos h1] at hid'
    exact absurd hid hid'
  · rw [if_neg h1] at hp' ⊢
    by_cases h2 : (b.pitch == X.pitch) = true
    · rw [if_pos h2]
    · rw [if_neg h2] at hp'
      exact absurd hp' (by simpa using h2)

/-- After an accept, the pitch is stored as `approved`. -/
theorem acceptPitchUpd_mem (db : DB) (pid : ℕ) (P : Pitch)
    (hP : findPitch db pid = some P) :
    { P with status := PitchStatus.approved } ∈ db.pitches.map (acceptPitchUpd pid) := by
  refine List.mem_map.mpr ⟨P, findPitch_mem db pid P hP, ?_⟩
  unfold acceptPitchUpd
  rw [if_pos (by simp [findPitch_id db pid P hP])]

/-- C2: a successful `acceptOffer(X)` by the pitch's borrower marks X
`accepted`, marks every other offer on the pitch `rejected` regardless of its
prior state, and moves the pitch to `approved`. -/
theorem c2_accept_post (db : DB) (x u : ℕ) (X : Bid) (P : Pitch)
    (hX : findBid db x = some X)
    (hP : findPitch db X.pitch = some P)
    (hu : P.borrower = u) :
    ∃ db', acceptOffer x u db = .ok ({ X with status := .accepted }, db') ∧
      { X with status := .accepted } ∈ db'.bids ∧
      (∀ b ∈ db.bids, b.pitch = X.pitch → b.id ≠ x →
        { b with status := .rejected } ∈ db'.bids) ∧
      (∀ b' ∈ db'.bids, b'.pitch = X.pitch → b'.id ≠ x → b'.status = .rejected) ∧
      { P with status := .approved } ∈ db'.pitches :=
  ⟨_, acceptOffer_ok db x u X P hX hP hu,
   acceptBidUpd_target_mem db x X hX,
   fun b hb hbp hbid => acceptBidUpd_sibling_mem db x X b hb hbp hbid,
   acceptBidUpd_post_rejected db x X (findBid_id db x X hX),
   acceptPitchUpd_mem db X.pitch P hP⟩

/-- Witness for C2: borrower 7 accepting bid 1 on pitch 1 rejects bids 2 and 3
and approves the pitch. -/
theorem c2_accept_post_witness : ∃ db',
    acceptOffer 1 7 exDb = .ok ({ exBid1 with status := .accepted }, db') ∧
    { exBid2 with status := .rejected } ∈ db'.bids ∧
    { exBid3 with status := .rejected } ∈ db'.bids ∧
    { exPitch with status := .approved } ∈ db'.pitches := by
  obtain ⟨db', hok, _, hsib, _, hpitch⟩ :=
    c2_accept_post exDb 1 7 exBid1 exPitch (by decide) (by decide) rfl
  exact ⟨db', hok,
    hsib exBid2 (by decide) rfl (by decide),
    hsib exBid3 (by decide) rfl (by decide),
    hpitch⟩

/-- C9: `acceptOffer` by a non-borrower rejects with `Forbidden` and changes
nothing; `acceptOffer` on an unknown offer id rejects with `NotFound` and
changes nothing. -/
theorem c9_accept_rejections (db : DB) (x u : ℕ) :
    (∀ X P, findBid db x = some X → findPitch db X.pitch = some P → P.borrower ≠ u →
      acceptOffer x u db = .error .forbidden ∧ applyOp (.accept x u) db = db) ∧
    (findBid db x = none →
      acceptOffer x u db = .error .notFound ∧ applyOp (.accept x u) db = db) := by
  constructor
  · intro X P hX hP hu
    have herr : acceptOffer x u db = .error .forbidden := by
      unfold acceptOffer
      simp [hX, hP, hu]
    exact ⟨herr, by simp [applyOp, herr]⟩
  · intro hX
    have herr : acceptOffer x u db = .error .notFound := by
      unfold acceptOffer
      simp [hX]
    exact ⟨herr, by simp [applyOp, herr]⟩

/-- Witness for C9: user 8 (not borrower 7) is refused on bid 1, and bid 99
does not exist; the store stays as it was in both cases. -/
theorem c9_accept_rejections_witness :
    (acceptOffer 1 8 exDb = .error .forbidden ∧ applyOp (.accept 1 8) exDb = exDb) ∧
    (acceptOffer 99 8 exDb = .error .notFound ∧ applyOp (.accept 99 8) exDb = exDb) :=
  ⟨(c9_accept_rejections exDb 1 8).1 exBid1 exPitch (by decide) (by decide) (by decide),
   (c9_accept_rejections exDb 99 8).2 (by decide)⟩

/-- C10: `acceptOffer` places no precondition on the target's status, its
`isFinal` flag, or the pitch's status — for any values `st`, `fin`, `pst` of
those fields a borrower call succeeds, accepts the target, rejects the
siblings and approves the pitch. -/
theorem c10_accept_no_precondition (db : DB) (x u : ℕ) (X : Bid) (P : Pitch)
    (st : BidStatus) (fin : Bool) (pst : PitchStatus)
    (hX : findBid db x = some X) (_hst : X.status = st) (_hfin : X.isFinal = fin)
    (hP : findPitch db X.pitch = some P) (_hpst : P.status = pst)
    (hu : P.borrower = u) :
    (acceptOffer x u db).isOk = true ∧
    ∃ db', acceptOffer x u db = .ok ({ X with status := .accepted }, db') ∧
      (∀ b ∈ db.bids, b.pitch = X.pitch → b.id ≠ x →
        { b with status := .rejected } ∈ db'.bids) ∧
      { P with status := .approved } ∈ db'.pitches := by
  have hok := acceptOffer_ok db x u X P hX hP hu
  exact ⟨by rw [hok]; rfl,
    _, hok,
    fun b hb hbp hbid => acceptBidUpd_sibling_mem db x X b hb hbp hbid,
    acceptPitchUpd_mem db X.pitch P hP⟩

/-- Witness for C10: borrower 7 accepts bid 2 even though it is `rejected`,
not final, and the pitch never had an offer sent. -/
theorem c10_accept_no_precondition_witness :
    (acceptOffer 2 7 exDbRej).isOk = true ∧
    ∃ db', acceptOffer 2 7 exDbRej = .ok ({ exBid2r with status := .accepted }, db') ∧
      { exPitch with status := .approved } ∈ db'.pitches := by
  obtain ⟨hok, db', heq, _, hpitch⟩ :=
    c10_accept_no_precondition exDbRej 2 7 exBid2r exPitch
      .rejected false .pending (by decide) rfl rfl (by decide) rfl rfl
  exact ⟨hok, db', heq, hpitch⟩

/-- In the store produced by a successful `finalizeOffer(X)`, a second
`finalizeOffer(Y)` on the same pitch hits the conflict check: X is now stored
with `isFinal = true`. -/
theorem finalize_db1_conflict (db : DB) (x y : ℕ) (X Y : Bid) (P : Pitch)
    (hX : findBid db x = some X)
    (hP : findPitch db X.pitch = some P)
    (hY : findBid db y = some Y) (hYpitch : Y.pitch = X.pitch) (hxy : y ≠ x) :
    finalizeOffer y (DB.mk (db.bids.map (finalizeBidUpd x X))
      (db.pitches.map (finalizePitchUpd x X.pitch))) = .error .conflict := by
  have hid : X.id = x := findBid_id db x X hX
  have hYid : Y.id = y := findBid_id db y Y hY
  have hfY : (db.bids.map (finalizeBidUpd x X)).find? (fun b => b.id == y) =
      some (finalizeBidUpd x X Y) := by
    rw [List.find?_map]
    have hpred : ((fun b : Bid => b.id == y) ∘ finalizeBidUpd x X) =
        (fun b : Bid => b.id == y) := by
      funext b
      simp [Function.comp, finalizeBidUpd_id x X hid b]
    rw [hpred]
    unfold findBid at hY
    rw [hY]
    rfl
  have hfYpitch : (finalizeBidUpd x X Y).pitch = X.pitch := by
    rw [finalizeBidUpd_pitch x X Y (by rw [hYid]; exact hxy), hYpitch]
  have hfP : (db.pitches.map (finalizePitchUpd x X.pitch)).find?
      (fun pc => pc.id == X.pitch) = some (finalizePitchUpd x X.pitch P) := by
    rw [List.find?_map]
    have hpred : ((fun pc : Pitch => pc.id == X.pitch) ∘ finalizePitchUpd x X.pitch) =
        (fun pc : Pitch => pc.id == X.pitch) := by
      funext pc
      simp [Function.comp, finalizePitchUpd_id]
    rw [hpred]
    unfold findPitch at hP
    rw [hP]
    rfl
  have hfX : finalizeBidUpd x X X = { X with isFinal := true, status := .pending } := by
    unfold finalizeBidUpd
    rw [if_pos (by simp [hid])]
  have hconf : ((db.bids.map (finalizeBidUpd x X)).find?
      (fun b => b.pitch == X.pitch && b.isFinal && b.id != y)).isSome = true := by
    apply List.find?_isSome.mpr
    refine ⟨finalizeBidUpd x X X, List.mem_map_of_mem _ (findBid_mem db x X hX), ?_⟩
    rw [hfX]
    simp [hid, Ne.symm hxy]
  unfold finalizeOffer findBid findPitch
  dsimp only
  simp only [hfY, hfYpitch, hfP, hconf, if_true]

/-- C4: once an offer X has been finalized on a pitch, finalizing any other
offer Y of that pitch rejects with `Conflict` and leaves the store unchanged —
of the two finalizations, exactly the first succeeds. -/
theorem c4_second_finalize_conflict (db : DB) (x y : ℕ) (X Y : Bid) (P : Pitch)
    (hX : findBid db x = some X)
    (hP : findPitch db X.pitch = some P)
    (hnofinal : ∀ b ∈ db.bids, b.pitch = X.pitch → b.isFinal = true → b.id = x)
    (hY : findBid db y = some Y) (hYpitch : Y.pitch = X.pitch) (hxy : y ≠ x) :
    ∃ db1, finalizeOffer x db = .ok ({ X with isFinal := true, status := .pending }, db1) ∧
      finalizeOffer y db1 = .error .conflict ∧
      applyOp (.finalize y) db1 = db1 := by
  have herr := finalize_db1_conflict db x y X Y P hX hP hY hYpitch hxy
  exact ⟨DB.mk (db.bids.map (finalizeBidUpd x X)) (db.pitches.map (finalizePitchUpd x X.pitch)),
    finalizeOffer_ok db x X P hX hP (noFinal_find_none db x X hnofinal),
    herr, by simp [applyOp, herr]⟩

/-- Witness for C4: after finalizing bid 1 on pitch 1, finalizing bid 2 is
refused with a conflict and the store is untouched. -/
theorem c4_second_finalize_conflict_witness : ∃ db1,
    finalizeOffer 1 exDb = .ok ({ exBid1 with isFinal := true, status := .pending }, db1) ∧
    finalizeOffer 2 db1 = .error .conflict ∧
    applyOp (.finalize 2) db1 = db1 :=
  c4_second_finalize_conflict exDb 1 2 exBid1 exBid2 exPitch
    (by decide) (by decide) (by decide) (by decide) rfl (by decide)

/-- Inserting `x` in front of the elements it weakly precedes keeps the
stability-strengthened pairwise relation, provided `x` is `R`-before every
element already present. -/
theorem orderedInsert_pairwise_stable {α : Type*} (r R : α → α → Prop) [DecidableRel r]
    (total : ∀ a b, r a b ∨ r b a) (htrans : ∀ {a b c}, r a b → r b c → r a c)
    (x : α) (l : List α)
    (hl : l.Pairwise (fun a b => r a b ∧ (r b a → R a b)))
    (hx : ∀ y ∈ l, R x y) :
    (l.orderedInsert r x).Pairwise (fun a b => r a b ∧ (r b a → R a b)) := by
  induction l with
  | nil =>
    simp [List.orderedInsert]
  | cons y ys ih =>
    rcases List.pairwise_cons.mp hl with ⟨hy, hys⟩
    by_cases h : r x y
    · simp only [List.orderedInsert, if_pos h]
      refine List.pairwise_cons.mpr ⟨?_, hl⟩
      intro z hz
      rcases List.mem_cons.mp hz with rfl | hz'
      · exact ⟨h, fun _ => hx z (List.mem_cons_self _ _)⟩
      · exact ⟨htrans h (hy z hz').1, fun _ => hx z (List.mem_cons_of_mem _ hz')⟩
    · simp only [List.orderedInsert, if_neg h]
      have hryx : r y x := (total x y).resolve_left h
      refine List.pairwise_cons.mpr
        ⟨?_, ih hys (fun z hz => hx z (List.mem_cons_of_mem _ hz))⟩
      intro z hz
      rcases (List.mem_orderedInsert r).mp hz with rfl | hz'
      · exact ⟨hryx, fun hxy => absurd hxy h⟩
      · exact hy z hz'

/-- Stability of `List.insertionSort`: sorting by a total preorder `r` a list
that is pairwise `R` yields a list that is sorted by `r` and, where `r` ties,
still pairwise `R`. -/
theorem insertionSort_pairwise_stable {α : Type*} (r R : α → α → Prop) [DecidableRel r]
    (total : ∀ a b, r a b ∨ r b a) (htrans : ∀ {a b c}, r a b → r b c → r a c)
    (l : List α) (h : l.Pairwise R) :
    (l.insertionSort r).Pairwise (fun a b => r a b ∧ (r b a → R a b)) := by
  induction h with
  | nil =>
    simp [List.insertionSort]
  | cons hhead htail ih =>
    simp only [List.insertionSort]
    refine orderedInsert_pairwise_stable r R total htrans _ _ ih ?_
    intro y hy
    exact hhead y ((List.mem_insertionSort r).mp hy)

/-- The score merge does not change a bid once its transient score is erased. -/
theorem clearScore_augment (ranked : List RankedOffer) (b : Bid) :
    clearScore (augment ranked b) = clearScore b := by
  unfold augment
  split <;> rfl

/-- The score merge does not change a bid's creation time. -/
theorem augment_createdAt (ranked : List RankedOffer) (b : Bid) :
    (augment ranked b).createdAt = b.createdAt := by
  unfold augment
  split <;> rfl

/-- Every bid of the batch receives a composite score from the ranking of that
batch. -/
theorem augment_isSome (l : List Bid) (b : Bid) (hb : b ∈ l) :
    ((augment (rankOffers (l.map formatBid)) b).compositeScore).isSome = true := by
  have hfind : ((rankOffers (l.map formatBid)).find?
      (fun r => r.investor_id == b.investor)).isSome = true := by
    unfold rankOffers
    refine List.find?_isSome.mpr
      ⟨_, List.mem_map_of_mem _ (List.mem_map_of_mem formatBid hb), ?_⟩
    simp [formatBid]
  obtain ⟨r, hr⟩ := Option.isSome_iff_exists.mp hfind
  unfold augment
  rw [hr]
  rfl

/-- C7 (spec-modelled ranking): `listOffers` returns exactly the pitch's
`pending`/`accepted` offers (up to the transient score field), every returned
offer carries a composite score, and the list is sorted descending by
composite score. -/
theorem c7_list_offers_ranked (pid : ℕ) (db : DB) :
    ((listOffers pid db).map clearScore).Perm
      ((db.bids.filter (visibleBid pid)).map clearScore) ∧
    (∀ b ∈ listOffers pid db, b.compositeScore.isSome = true) ∧
    (listOffers pid db).Pairwise scoreDesc := by
  unfold listOffers
  by_cases hemp :
      (List.insertionSort createdDesc (db.bids.filter (visibleBid pid))).isEmpty = true
  · rw [if_pos hemp]
    have h0 : List.insertionSort createdDesc (db.bids.filter (visibleBid pid)) = [] :=
      List.isEmpty_iff.mp hemp
    have hfil : db.bids.filter (visibleBid pid) = [] := by
      have hp := List.perm_insertionSort createdDesc (db.bids.filter (visibleBid pid))
      rw [h0] at hp
      exact (hp.symm).eq_nil
    rw [h0, hfil]
    simp
  · rw [if_neg hemp]
    refine ⟨?_, ?_, ?_⟩
    · refine ((List.perm_insertionSort scoreDesc _).map clearScore).trans ?_
      rw [List.map_map]
      have hcomp : (clearScore ∘ augment (rankOffers
          ((List.insertionSort createdDesc (db.bids.filter (visibleBid pid))).map formatBid)))
          = clearScore :=
        funext fun b => clearScore_augment _ b
      rw [hcomp]
      exact (List.perm_insertionSort createdDesc _).map clearScore
    · intro b hb
      rw [List.mem_insertionSort] at hb
      obtain ⟨b0, hb0, rfl⟩ := List.mem_map.mp hb
      exact augment_isSome _ b0 hb0
    · exact List.sorted_insertionSort scoreDesc _

/-- C8 (amended): among offers with equal composite score, `listOffers` puts
the one with the later `createdAt` first — ties go to the most recent bidder,
because the route pre-sorts newest-first and the score sort is stable. -/
theorem c8_tiebreak_latest_first (pid : ℕ) (db : DB) :
    (listOffers pid db).Pairwise
      (fun a b => scoreD a = scoreD b → b.createdAt ≤ a.createdAt) := by
  unfold listOffers
  by_cases hemp :
      (List.insertionSort createdDesc (db.bids.filter (visibleBid pid))).isEmpty = true
  · rw [if_pos hemp, List.isEmpty_iff.mp hemp]
    exact List.Pairwise.nil
  · rw [if_neg hemp]
    have h1 : (List.insertionSort createdDesc (db.bids.filter (visibleBid pid))).Pairwise
        createdDesc :=
      List.sorted_insertionSort createdDesc _
    have h2 : ((List.insertionSort createdDesc (db.bids.filter (visibleBid pid))).map
        (augment (rankOffers ((List.insertionSort createdDesc
          (db.bids.filter (visibleBid pid))).map formatBid)))).Pairwise createdDesc := by
      refine List.Pairwise.map _ ?_ h1
      intro a b hab
      unfold createdDesc at hab ⊢
      rw [augment_createdAt, augment_createdAt]
      exact hab
    have h3 := insertionSort_pairwise_stable scoreDesc createdDesc
      (fun a b => le_total (scoreD b) (scoreD a))
      (fun hab hbc => le_trans hbc hab) _ h2
    refine h3.imp ?_
    intro a b hS heq
    exact hS.2 (le_of_eq heq)

/-- C8 counterexample: bids 1 and 2 carry identical terms, hence equal
composite scores, yet the ranking lists bid 2 (created at 200) before bid 1
(created at 100): the earlier bidder does not win the tie. -/
theorem c8_tiebreak_counterexample :
    (listOffers 1 exDb).map Bid.id = [2, 1, 3] ∧
    (listOffers 1 exDb).map scoreD = [24/25, 24/25, 211/250] ∧
    (listOffers 1 exDb).map Bid.createdAt = [200, 100, 300] := by
  norm_num [listOffers, exDb, exBid1, exBid2, exBid3, exPitch, visibleBid, createdDesc,
    scoreDesc, scoreD, rankOffers, maxPrincipal, formatBid, augment, compositeScoreOf,
    List.insertionSort, List.orderedInsert, List.filter]

/-- One lifecycle request preserves unique ids and the at-most-one-final-offer
invariant. -/
theorem inv_applyOp (o : Op) (db : DB) (h : Inv db) : Inv (applyOp o db) := by
  obtain ⟨hnd, hone⟩ := h
  cases o with
  | submit pid inv p i t now =>
    simp only [applyOp]
    rcases hs : submitOffer pid inv p i t now db with e | pair
    · simp only [hs]
      exact ⟨hnd, hone⟩
    · obtain ⟨bid, db'⟩ := pair
      simp only [hs]
      rcases submitOffer_ok_inv pid inv p i t now db bid db' hs with ⟨e, _, hbids⟩ | hbids
      · constructor
        · unfold nodupIds
          rw [hbids]
          refine nodupIds_map _ _ ?_ hnd
          intro b _
          by_cases h1 : (b.id == e.id) = true
          · rw [if_pos h1]
            simp only [beq_iff_eq] at h1
            exact h1.symm
          · rw [if_neg h1]
        · intro q
          unfold finalCount
          rw [hbids, List.countP_map]
          refine le_trans (List.countP_mono_left ?_) (hone q)
          intro b _ hpb
          simp only [Function.comp] at hpb
          by_cases h1 : (b.id == e.id) = true
          · rw [if_pos h1] at hpb
            simp [submitUpd] at hpb
          · rw [if_neg h1] at hpb
            exact hpb
      · constructor
        · unfold nodupIds
          rw [hbids, List.map_append, List.nodup_append]
          refine ⟨hnd, List.nodup_singleton _, ?_⟩
          intro a ha hb2
          simp only [List.map_cons, List.map_nil, List.mem_singleton] at hb2
          have ha' : a = freshId db := hb2
          rw [ha'] at ha
          exact freshId_not_mem db ha
        · intro q
          unfold finalCount
          rw [hbids, List.countP_append]
          have h2 : List.countP (fun b => b.pitch == q && b.isFinal)
              [submitNew pid inv (p.getD 0) (i.getD 0) (t.getD 0) now db] = 0 := by
            simp [submitNew]
          rw [h2, Nat.add_zero]
          exact hone q
  | accept x u =>
    simp only [applyOp]
    rcases hs : acceptOffer x u db with e | pair
    · simp only [hs]
      exact ⟨hnd, hone⟩
    · obtain ⟨bid, db'⟩ := pair
      simp only [hs]
      obtain ⟨X, hfX, hbids⟩ := acceptOffer_ok_inv x u db bid db' hs
      have hid : X.id = x := findBid_id db x X hfX
      have hXmem : X ∈ db.bids := findBid_mem db x X hfX
      constructor
      · unfold nodupIds
        rw [hbids]
        exact nodupIds_map _ _ (fun b _ => acceptBidUpd_id x X hid b) hnd
      · intro q
        unfold finalCount
        rw [hbids, List.countP_map]
        have hcong : ∀ b ∈ db.bids,
            ((fun b => b.pitch == q && b.isFinal) ∘ acceptBidUpd x X) b =
              (b.pitch == q && b.isFinal) := by
          intro b hb
          simp only [Function.comp]
          unfold acceptBidUpd
          by_cases h1 : (b.id == x) = true
          · have hbX : b = X :=
              bid_eq_of_id_eq db.bids hnd b X hb hXmem
                ((beq_iff_eq.mp h1).trans hid.symm)
            rw [if_pos h1, hbX]
          · rw [if_neg h1]
            split <;> rfl
        rw [List.countP_congr (fun b hb => by rw [hcong b hb])]
        exact hone q
  | finalize x =>
    simp only [applyOp]
    rcases hs : finalizeOffer x db with e | pair
    · simp only [hs]
      exact ⟨hnd, hone⟩
    · obtain ⟨bid, db'⟩ := pair
      simp only [hs]
      obtain ⟨X, hfX, hnone, hbids⟩ := finalizeOffer_ok_inv x db bid db' hs
      have hid : X.id = x := findBid_id db x X hfX
      have hnofin : ∀ b ∈ db.bids, b.id ≠ x → ¬(b.pitch = X.pitch ∧ b.isFinal = true) := by
        intro b hb hne hcontra
        apply List.find?_eq_none.mp hnone b hb
        simp [hcontra.1, hcontra.2, hne]
      constructor
      · unfold nodupIds
        rw [hbids]
        exact nodupIds_map _ _ (fun b _ => finalizeBidUpd_id x X hid b) hnd
      · intro q
        unfold finalCount
        rw [hbids, List.countP_map]
        by_cases hq : q = X.pitch
        · subst hq
          have hcong : ∀ b ∈ db.bids,
              ((fun b => b.pitch == X.pitch && b.isFinal) ∘ finalizeBidUpd x X) b =
                (b.id == x) := by
            intro b hb
            simp only [Function.comp]
            unfold finalizeBidUpd
            by_cases h1 : (b.id == x) = true
            · rw [if_pos h1, h1]
              simp
            · have h1f : (b.id == x) = false := Bool.eq_false_iff.mpr h1
              rw [if_neg h1, h1f]
              have hfalse : (b.pitch == X.pitch && b.isFinal) = false := by
                rw [Bool.eq_false_iff]
                intro hh
                simp only [Bool.and_eq_true, beq_iff_eq] at hh
                exact hnofin b hb (by simpa using h1) ⟨hh.1, hh.2⟩
              split
              · exact hfalse
              · exact hfalse
          rw [List.countP_congr (fun b hb => by rw [hcong b hb])]
          exact countP_id_le_one db.bids hnd x
        · refine le_trans (List.countP_mono_left ?_) (hone q)
          intro b _ hpb
          simp only [Function.comp] at hpb
          unfold finalizeBidUpd at hpb
          by_cases h1 : (b.id == x) = true
          · rw [if_pos h1] at hpb
            simp only [Bool.and_eq_true, beq_iff_eq] at hpb
            exact absurd hpb.1.symm hq
          · rw [if_neg h1] at hpb
            revert hpb
            split
            · intro hpb
              exact hpb
            · intro hpb
              exact hpb

/-- C3: from any well-formed store (unique ids, at most one final offer per
pitch), every sequence of submit, finalize and accept requests leads only to
stores with at most one final offer per pitch; each single operation preserves
the predicate. -/
theorem c3_at_most_one_final (db : DB) (ops : List Op) (h : Inv db) :
    Inv (run ops db) ∧ atMostOneFinal (run ops db) := by
  have hrun : ∀ (os : List Op) (d : DB), Inv d → Inv (run os d) := by
    intro os
    induction os with
    | nil => exact fun d hd => hd
    | cons o os' ih =>
      intro d hd
      rw [run, List.foldl_cons]
      exact ih _ (inv_applyOp o d hd)
  exact ⟨hrun ops db h, (hrun ops db h).2⟩

/-- Witness for C3: finalizing and then accepting bid 1 on the example store
keeps at most one final offer per pitch. -/
theorem c3_at_most_one_final_witness :
    atMostOneFinal (run [Op.finalize 1, Op.accept 1 7] exDb) := by
  have hInv : Inv exDb := by
    constructor
    · show (exDb.bids.map Bid.id).Nodup
      decide
    · intro pid
      simp [finalCount, exDb, exBid1, exBid2, exBid3]
  exact (c3_at_most_one_final exDb [Op.finalize 1, Op.accept 1 7] hInv).2

/-- Witness for C6: overwriting investor 10's closed bid on pitch 1 keeps the
record's identity and the store's size. -/
theorem c6_submit_upsert_witness : ∃ upd db',
    submitOffer 1 10 (some 60000) (some 8) (some 24) 500 exDbClosed = .ok (upd, db') ∧
    upd.id = 1 ∧ db'.bids.length = 2 := by
  obtain ⟨upd, db', hok, hid, _, _, _, _, _, _, _, _, hlen, _⟩ :=
    (c6_submit_upsert 1 10 (some 60000) (some 8) (some 24) 500 exDbClosed
      (by decide) (by decide) (by decide)).1 exBid1c (by decide)
  exact ⟨upd, db', hok, by rw [hid]; rfl, by rw [hlen]; rfl⟩

end Finvest
